import Mathlib

attribute [local semireducible] Rat.add Rat.mul Rat.sub Rat.inv

/-!
Shallow embedding of the pcgs repository (sparse symmetric matrices,
compressed-row views and the preconditioned conjugate-gradient solver)
together with proofs about its specification.

Source files embedded:
* `src/sparse_symmetric_matrix.rs` : `Entry`, `SparseSymmetricMatrix::new`.
* `src/sparse_row_matrix.rs`       : `SparseRowMatrix::new`, `::len`,
  `::apply` and the `Validity` implementation.
* `src/main.rs`                    : the regression scenario.

Modelling conventions:
* `f64` values are embedded as the type `Fl`: a finiteness flag together
  with a rational number.  Rational arithmetic stands for exact real
  arithmetic; the finiteness flag is what `f64::is_finite` inspects.
* Rust's stable `sort_by` is embedded as Mathlib's `List.insertionSort`,
  which is also a stable sort; two stable sorts with the same comparator
  agree on every input.
* Rust `assert!`/`assert_eq!` panics in `apply` are embedded as the
  explicit error outcomes of an `Except`.
* The `vector`, `preconditioner` and `solver` modules of the repository
  are not present under `src/`; the solver used by one claim is modelled
  from the specification text and clearly marked as such.
-/

namespace PCGS

/-- Model of an `f64` value: `isFinite` is the finiteness flag inspected by
`f64::is_finite`, and `q` the exact (rational) value it carries when finite. -/
structure Fl where
  isFinite : Bool
  q : ℚ
deriving DecidableEq, Repr

instance : Inhabited Fl := ⟨⟨true, 0⟩⟩

/-- A finite float with value `q`. -/
def Fl.fin (q : ℚ) : Fl := ⟨true, q⟩

/-- `Entry { x, y, v }` from `src/sparse_symmetric_matrix.rs`. -/
structure Entry where
  x : ℕ
  y : ℕ
  v : Fl
deriving DecidableEq, Repr

/-- `Entry::lower_triangle` (src/sparse_symmetric_matrix.rs): canonicalize
to `(min(x,y), max(x,y), v)`. -/
def Entry.lower_triangle (e : Entry) : Entry := ⟨min e.x e.y, max e.x e.y, e.v⟩

/-- `Entry::symmetric` (src/sparse_symmetric_matrix.rs): swap coordinates. -/
def Entry.symmetric (e : Entry) : Entry := ⟨e.y, e.x, e.v⟩

/-- The comparator used by `sorted_entries.sort_by` in
`SparseSymmetricMatrix::new`: lexicographic by `x` then `y`. -/
def Entry.le (a b : Entry) : Prop := a.x < b.x ∨ (a.x = b.x ∧ a.y ≤ b.y)

/-- Strict version of the sorting order (used to state strict increase of
rows; not part of the source, a derived notion for the proofs). -/
def Entry.lt (a b : Entry) : Prop := a.x < b.x ∨ (a.x = b.x ∧ a.y < b.y)

instance : DecidableRel Entry.le := fun a b => by
  unfold Entry.le; infer_instance

instance : DecidableRel Entry.lt := fun a b => by
  unfold Entry.lt; infer_instance

instance : IsTotal Entry Entry.le := by
  constructor
  intro a b
  unfold Entry.le
  omega

instance : IsTrans Entry Entry.le := by
  constructor
  intro a b c hab hbc
  unfold Entry.le at hab hbc ⊢
  omega

instance : IsTrans Entry Entry.lt := by
  constructor
  intro a b c hab hbc
  unfold Entry.lt at hab hbc ⊢
  omega

instance : IsAntisymm Entry Entry.lt := by
  constructor
  intro a b hab hba
  unfold Entry.lt at hab hba
  omega

/-- The closure of `dedup_by`: `|a, b| a.x == b.x && a.y == b.y`. -/
def sameCoord (a b : Entry) : Bool := a.x == b.x && a.y == b.y

/-- Inner loop of `Vec::dedup_by`: `prev` is the last retained element;
a following element equal to it (under `sameCoord`) is dropped, otherwise
it is retained and becomes the comparison target. -/
def dedupLoop : Entry → List Entry → List Entry
  | _, [] => []
  | prev, a :: rest =>
    if sameCoord a prev then dedupLoop prev rest else a :: dedupLoop a rest

/-- `sorted_entries.dedup_by(|a, b| a.x == b.x && a.y == b.y)` from
`SparseSymmetricMatrix::new`: drop consecutive duplicates, keeping the
first element of every run. -/
def dedupEntries : List Entry → List Entry
  | [] => []
  | a :: rest => a :: dedupLoop a rest

/-- The stable sort `sorted_entries.sort_by(...)` of
`SparseSymmetricMatrix::new`, embedded as the stable `insertionSort`. -/
def sortEntries (l : List Entry) : List Entry := List.insertionSort Entry.le l

/-- Lines 40-51 of `SparseSymmetricMatrix::new`: map every entry to its
lower triangle form, collect the symmetric mirrors of the off-diagonal
ones, and append the mirrors. -/
def combinedEntries (entries : List Entry) : List Entry :=
  entries.map Entry.lower_triangle ++
    ((entries.map Entry.lower_triangle).filter (fun e => e.x != e.y)).map Entry.symmetric

/-- `length` in `SparseSymmetricMatrix::new`: fold of `max(acc, max(x, y))`
starting from 0. -/
def maxCoord (es : List Entry) : ℕ := es.foldl (fun acc e => max acc (max e.x e.y)) 0

/-- The loop `indices[entry.x].push(entry.y)` over `sorted_entries`,
starting from `length + 1` empty rows (`n` is `length + 1`). -/
def bucketIndices (n : ℕ) (es : List Entry) : List (List ℕ) :=
  es.foldl (fun ind e => ind.set e.x (ind.getD e.x [] ++ [e.y])) (List.replicate n [])

/-- The loop `values[entry.x].push(entry.v)` over `sorted_entries`,
starting from `length + 1` empty rows. -/
def bucketValues (n : ℕ) (es : List Entry) : List (List Fl) :=
  es.foldl (fun vls e => vls.set e.x (vls.getD e.x [] ++ [e.v])) (List.replicate n [])

/-- `SparseSymmetricMatrix` (src/sparse_symmetric_matrix.rs). -/
structure SparseSymmetricMatrix where
  length : ℕ
  indices : List (List ℕ)
  values : List (List Fl)
deriving DecidableEq, Repr

/-- Tail of `SparseSymmetricMatrix::new` after sorting: dedup, compute
`length`, and bucket the entries by row into `indices` and `values`. -/
def SparseSymmetricMatrix.build (sorted : List Entry) : SparseSymmetricMatrix :=
  let deduped := dedupEntries sorted
  let length := maxCoord deduped
  ⟨length, bucketIndices (length + 1) deduped, bucketValues (length + 1) deduped⟩

/-- `SparseSymmetricMatrix::new` (src/sparse_symmetric_matrix.rs, lines
39-72): canonicalize, mirror, stable-sort, dedup, and bucket by row. -/
def SparseSymmetricMatrix.new (entries : List Entry) : SparseSymmetricMatrix :=
  SparseSymmetricMatrix.build (sortEntries (combinedEntries entries))

/-- The pair `(j, v)` is stored in row `i`: position `k` of row `i` holds
column `j` with value `v`.  (Membership in the zip of the parallel
index/value rows.) -/
def SparseSymmetricMatrix.stored (m : SparseSymmetricMatrix) (i j : ℕ) (v : Fl) : Prop :=
  (j, v) ∈ (m.indices.getD i []).zip (m.values.getD i [])

instance (m : SparseSymmetricMatrix) (i j : ℕ) (v : Fl) : Decidable (m.stored i j v) := by
  unfold SparseSymmetricMatrix.stored; infer_instance

/-- `SparseRowMatrix` (src/sparse_row_matrix.rs): flat values, flat column
indices, and row pointers. -/
structure SparseRowMatrix where
  values : List Fl
  column_index : List ℕ
  row_pointers : List ℕ
deriving DecidableEq, Repr

/-- The values `matrix.values[i][j]` pushed for row `i` in
`SparseRowMatrix::new`: one read per element of `matrix.indices[i]`. -/
def rowVals (m : SparseSymmetricMatrix) (i : ℕ) : List Fl :=
  (List.range (m.indices.getD i []).length).map (fun j => (m.values.getD i []).getD j default)

/-- One pass of the loop body of `SparseRowMatrix::new` for row `i`:
push the row's values and columns, then push `values.len()` onto
`row_pointers`. -/
def crsStep (m : SparseSymmetricMatrix) (acc : List Fl × List ℕ × List ℕ) (i : ℕ) :
    List Fl × List ℕ × List ℕ :=
  let newValues := acc.1 ++ rowVals m i
  (newValues, acc.2.1 ++ m.indices.getD i [], acc.2.2 ++ [newValues.length])

/-- `SparseRowMatrix::new` (src/sparse_row_matrix.rs, lines 17-35): loop
over rows `0 .. matrix.length + 1` starting from empty value/column arrays
and `row_pointers = [0]`. -/
def SparseRowMatrix.new (m : SparseSymmetricMatrix) : SparseRowMatrix :=
  let t := (List.range (m.length + 1)).foldl (crsStep m) ([], [], [0])
  ⟨t.1, t.2.1, t.2.2⟩

/-- `SparseRowMatrix::len`: `row_pointers.len() - 1`. -/
def SparseRowMatrix.len (s : SparseRowMatrix) : ℕ := s.row_pointers.length - 1

/-- `Validity::is_valid` for `SparseRowMatrix` (src/sparse_row_matrix.rs,
lines 59-67): the list of non-finite stored values is empty. -/
def SparseRowMatrix.is_valid (s : SparseRowMatrix) : Bool :=
  (s.values.filter (fun e => ! e.isFinite)).length == 0

/-- The arithmetic loop of `SparseRowMatrix::apply`: for each row `i`,
`result[i]` starts at `0.0` and accumulates
`values[j] * rhs[column_index[j]]` for `j` in
`row_pointers[i] .. row_pointers[i+1]`, left to right. -/
def SparseRowMatrix.matvec (s : SparseRowMatrix) (rhs : List ℚ) : List ℚ :=
  (List.range s.len).map (fun i =>
    (List.range' (s.row_pointers.getD i 0)
        (s.row_pointers.getD (i + 1) 0 - s.row_pointers.getD i 0)).foldl
      (fun acc j => acc + (s.values.getD j default).q * rhs.getD (s.column_index.getD j 0) 0) 0)

/-- The two failure modes of `SparseRowMatrix::apply`: the
`assert_eq!(self.len(), rhs.0.len())` dimension check and the
`assert!(self.is_valid())` data-integrity check. -/
inductive ApplyError where
  | dimensionMismatch
  | notValid
deriving DecidableEq, Repr

/-- `SparseRowMatrix::apply` (src/sparse_row_matrix.rs, lines 42-56): the
two `assert` panics are embedded as `Except` errors, in source order
(dimension first, then validity); on success the row sums are returned.
The right-hand side vector is modelled as exact rationals. -/
def SparseRowMatrix.apply (s : SparseRowMatrix) (rhs : List ℚ) : Except ApplyError (List ℚ) :=
  if s.len ≠ rhs.length then .error .dimensionMismatch
  else if ¬ s.is_valid then .error .notValid
  else .ok (s.matvec rhs)

/-- Modelled from the spec: the `vector` module is not under `src/`; the
dot product of section 4.3, `sum of x[i]*y[i]` accumulated left to right. -/
def dotQ (a b : List ℚ) : ℚ := (a.zip b).foldl (fun acc p => acc + p.1 * p.2) 0

/-- Modelled from the spec: scaled addition `x + alpha*y` of section 4.3,
returning a new vector. -/
def axpyQ (x : List ℚ) (alpha : ℚ) (y : List ℚ) : List ℚ :=
  (x.zip y).map (fun p => p.1 + alpha * p.2)

/-- Modelled from the spec: vector subtraction of section 4.3. -/
def vsubQ (x y : List ℚ) : List ℚ := (x.zip y).map (fun p => p.1 - p.2)

/-- `SolverResult` of the spec (section 3): completion flag, iteration
count, and the best iterate found. -/
structure SolverResult where
  completed : Bool
  iterations : ℕ
  best_guess : List ℚ
deriving DecidableEq, Repr

/-- Modelled from the spec: the `solver` module is not under `src/`.  One
round of step 4 of section 4.5, recursing on the remaining iteration
budget.  `done` counts completed steps.  The convergence test
`norm(r) < tolerance` is expressed as `dot r r < tol2` with
`tol2 = tolerance^2` (equivalent, since `norm` is the square root of the
dot product); the breakdown test on `denom` is exact-zero in this
rational model (the spec leaves its epsilon unspecified). -/
def pcgLoop (s : SparseRowMatrix) (precond : List ℚ → List ℚ) (tol2 : ℚ)
    (x r p : List ℚ) (rz : ℚ) (done : ℕ) : ℕ → SolverResult
  | 0 => ⟨false, done, x⟩
  | fuel + 1 =>
    let q := s.matvec p
    let denom := dotQ p q
    if denom = 0 then ⟨false, done, x⟩
    else
      let alpha := rz / denom
      let xn := axpyQ x alpha p
      let rn := axpyQ r (-alpha) q
      if dotQ rn rn < tol2 then ⟨true, done + 1, xn⟩
      else
        let z := precond rn
        let rzn := dotQ rn z
        pcgLoop s precond tol2 xn rn (axpyQ z (rzn / rz) p) rzn (done + 1) fuel

/-- Modelled from the spec: `solve` of section 4.5.  Start from the zero
vector, return immediately when the right-hand side already meets the
tolerance, otherwise precondition and run the iteration up to
`maxIter` times. -/
def solve (s : SparseRowMatrix) (b : List ℚ) (precond : List ℚ → List ℚ)
    (tol2 : ℚ) (maxIter : ℕ) : SolverResult :=
  let x0 : List ℚ := List.replicate s.len 0
  let r0 := vsubQ b (s.matvec x0)
  if dotQ r0 r0 < tol2 then ⟨true, 0, x0⟩
  else
    let z0 := precond r0
    pcgLoop s precond tol2 x0 r0 z0 (dotQ r0 z0) 0 maxIter

/-- The entry list of the regression scenario in `src/main.rs`. -/
def mainEntries : List Entry :=
  [⟨0, 0, Fl.fin 1⟩, ⟨0, 1, Fl.fin 5⟩, ⟨0, 2, Fl.fin 6⟩, ⟨1, 1, Fl.fin 2⟩]

/-- The deduplicated, sorted entry list `sorted_entries` that
`SparseSymmetricMatrix::new` buckets into the matrix. -/
def canonicalEntries (entries : List Entry) : List Entry :=
  dedupEntries (sortEntries (combinedEntries entries))

/-- Boolean test that an entry sits at coordinate `(i, j)`. -/
def coordIs (i j : ℕ) (a : Entry) : Bool := a.x == i && a.y == j

theorem sameCoord_iff {a b : Entry} : sameCoord a b = true ↔ a.x = b.x ∧ a.y = b.y := by
  simp [sameCoord]

theorem sameCoord_refl (a : Entry) : sameCoord a a = true := by
  simp [sameCoord]

theorem find?_eq_head?_filter (p : α → Bool) (l : List α) :
    l.find? p = (l.filter p).head? := by
  induction l with
  | nil => rfl
  | cons a t ih =>
    by_cases h : p a
    · rw [List.find?_cons_of_pos _ h, List.filter_cons_of_pos h, List.head?_cons]
    · rw [List.find?_cons_of_neg _ h, List.filter_cons_of_neg h, ih]

theorem find?_filter_of_imp {p g : α → Bool} (h : ∀ a, p a = true → g a = true)
    (l : List α) : (l.filter g).find? p = l.find? p := by
  induction l with
  | nil => rfl
  | cons a t ih =>
    by_cases hg : g a
    · by_cases hp : p a <;> simp [List.filter_cons, List.find?_cons, hg, hp, ih]
    · have hp : ¬ p a = true := fun hpa => hg (h a hpa)
      simp [List.filter_cons, List.find?_cons, hg, hp, ih]

theorem dedupLoop_eq_dropWhile (prev : Entry) (l : List Entry) :
    dedupLoop prev l = dedupEntries (l.dropWhile (fun a => sameCoord a prev)) := by
  induction l generalizing prev with
  | nil => rfl
  | cons a t ih =>
    by_cases h : sameCoord a prev <;>
      simp [dedupLoop, dedupEntries, List.dropWhile_cons, h, ih]

theorem dedupEntries_cons (a : Entry) (l : List Entry) :
    dedupEntries (a :: l) =
      a :: dedupEntries (l.dropWhile (fun e => sameCoord e a)) := by
  rw [dedupEntries, dedupLoop_eq_dropWhile]

theorem mem_of_mem_dedupLoop {l : List Entry} {prev e : Entry}
    (h : e ∈ dedupLoop prev l) : e ∈ l := by
  induction l generalizing prev with
  | nil => simp [dedupLoop] at h
  | cons a t ih =>
    rw [dedupLoop] at h
    by_cases ha : sameCoord a prev
    · rw [if_pos ha] at h
      exact List.mem_cons_of_mem _ (ih h)
    · rw [if_neg ha] at h
      rcases List.mem_cons.mp h with rfl | h2
      · exact List.mem_cons_self _ _
      · exact List.mem_cons_of_mem _ (ih h2)

theorem mem_of_mem_dedupEntries {l : List Entry} {e : Entry}
    (h : e ∈ dedupEntries l) : e ∈ l := by
  cases l with
  | nil => simp [dedupEntries] at h
  | cons a t =>
    rw [dedupEntries] at h
    rcases List.mem_cons.mp h with rfl | h2
    · exact List.mem_cons_self _ _
    · exact List.mem_cons_of_mem _ (mem_of_mem_dedupLoop h2)

theorem le_of_sameCoord_right {a b c : Entry} (hle : Entry.le a b)
    (h : sameCoord c b = true) : Entry.le a c := by
  rcases sameCoord_iff.mp h with ⟨hx, hy⟩
  unfold Entry.le at hle ⊢
  omega

theorem sameCoord_of_le_le {a b c : Entry} (hab : Entry.le a b) (hbc : Entry.le b c)
    (h : sameCoord c a = true) : sameCoord b a = true := by
  rcases sameCoord_iff.mp h with ⟨hx, hy⟩
  rw [sameCoord_iff]
  unfold Entry.le at hab hbc
  omega

theorem dropWhile_sameCoord_of_sorted {a : Entry} {l : List Entry}
    (hl : l.Pairwise Entry.le) (ha : ∀ b ∈ l, Entry.le a b) :
    l.dropWhile (fun e => sameCoord e a) = l.filter (fun e => ! sameCoord e a) := by
  induction l with
  | nil => rfl
  | cons b t ih =>
    have hbt : ∀ c ∈ t, Entry.le b c := (List.pairwise_cons.mp hl).1
    have ht : t.Pairwise Entry.le := (List.pairwise_cons.mp hl).2
    have hat : ∀ c ∈ t, Entry.le a c := fun c hc => ha c (List.mem_cons_of_mem _ hc)
    by_cases hb : sameCoord b a
    · simp only [List.dropWhile_cons, hb, List.filter_cons, Bool.not_true, ite_true]
      exact ih ht hat
    · simp only [List.dropWhile_cons, hb, List.filter_cons, Bool.not_false, ite_false,
        Bool.not_eq_true', Bool.not_eq_false]
      have : t.filter (fun e => ! sameCoord e a) = t := by
        apply List.filter_eq_self.mpr
        intro c hc
        have hcs : sameCoord c a = false := by
          by_contra hcc
          rw [Bool.not_eq_false] at hcc
          exact hb (sameCoord_of_le_le (ha b (List.mem_cons_self _ _)) (hbt c hc) hcc)
        simp [hcs]
      simp [this]

theorem mem_dedupEntries_sorted :
    ∀ (l : List Entry), l.Pairwise Entry.le → ∀ e : Entry,
      (e ∈ dedupEntries l ↔ l.find? (fun a => sameCoord a e) = some e)
  | [], _, e => by simp [dedupEntries]
  | a :: t, hl, e => by
    have hat : ∀ b ∈ t, Entry.le a b := (List.pairwise_cons.mp hl).1
    have ht : t.Pairwise Entry.le := (List.pairwise_cons.mp hl).2
    rw [dedupEntries_cons, dropWhile_sameCoord_of_sorted ht hat]
    have hrec := mem_dedupEntries_sorted (t.filter (fun x => ! sameCoord x a))
      (ht.filter _) e
    by_cases hae : sameCoord a e
    · rw [List.find?_cons_of_pos (p := fun x => sameCoord x e) _ hae]
      constructor
      · intro h
        rcases List.mem_cons.mp h with rfl | hmem
        · rfl
        · exfalso
          have hef := mem_of_mem_dedupEntries hmem
          have hne := (List.mem_filter.mp hef).2
          simp only [Bool.not_eq_true'] at hne
          rcases sameCoord_iff.mp hae with ⟨hx, hy⟩
          have heq : sameCoord e a = true := sameCoord_iff.mpr ⟨hx.symm, hy.symm⟩
          rw [hne] at heq
          cases heq
      · intro h
        injection h with h
        exact h ▸ List.mem_cons_self _ _
    · rw [List.find?_cons_of_neg (p := fun x => sameCoord x e) _ (by simpa using hae)]
      have himp : ∀ b : Entry, sameCoord b e = true → (! sameCoord b a) = true := by
        intro b hb
        rcases sameCoord_iff.mp hb with ⟨hx, hy⟩
        have hba : sameCoord b a = false := by
          by_contra hcc
          rw [Bool.not_eq_false] at hcc
          rcases sameCoord_iff.mp hcc with ⟨hx2, hy2⟩
          exact hae (sameCoord_iff.mpr ⟨by omega, by omega⟩)
        simp [hba]
      rw [find?_filter_of_imp himp] at hrec
      constructor
      · intro h
        rcases List.mem_cons.mp h with rfl | hmem
        · exact absurd (sameCoord_refl _) (by simpa using hae)
        · exact hrec.mp hmem
      · intro h
        exact List.mem_cons_of_mem _ (hrec.mpr h)
  termination_by l => l.length
  decreasing_by
    simp only [List.length_cons]
    exact Nat.lt_succ_of_le (List.length_filter_le _ _)

theorem sortEntries_pairwise (l : List Entry) : (sortEntries l).Pairwise Entry.le :=
  List.sorted_insertionSort Entry.le l

theorem sortEntries_perm (l : List Entry) : (sortEntries l).Perm l :=
  List.perm_insertionSort Entry.le l

theorem filter_sameCoord_sortEntries (l : List Entry) (e0 : Entry) :
    (sortEntries l).filter (fun a => sameCoord a e0) =
      l.filter (fun a => sameCoord a e0) := by
  have h1 : (l.filter (fun a => sameCoord a e0)).Pairwise Entry.le := by
    apply List.pairwise_of_forall_mem_list
    intro a ha b hb
    rcases sameCoord_iff.mp (List.mem_filter.mp ha).2 with ⟨hax, hay⟩
    rcases sameCoord_iff.mp (List.mem_filter.mp hb).2 with ⟨hbx, hby⟩
    unfold Entry.le
    omega
  have h3 : List.Sublist (l.filter (fun a => sameCoord a e0)) (sortEntries l) :=
    List.sublist_insertionSort h1 (List.filter_sublist l)
  have h4 : ((sortEntries l).filter (fun a => sameCoord a e0)).Perm
      (l.filter (fun a => sameCoord a e0)) :=
    (sortEntries_perm l).filter _
  have h5 : List.Sublist (l.filter (fun a => sameCoord a e0))
      ((sortEntries l).filter (fun a => sameCoord a e0)) := by
    have h6 := h3.filter (fun a => sameCoord a e0)
    rwa [List.filter_filter, show
        (fun a => sameCoord a e0 && sameCoord a e0) = (fun a => sameCoord a e0) from
        funext fun a => Bool.and_self _] at h6
  exact (h5.eq_of_length h4.length_eq.symm).symm

theorem find?_sameCoord_sortEntries (l : List Entry) (e0 : Entry) :
    (sortEntries l).find? (fun a => sameCoord a e0) =
      l.find? (fun a => sameCoord a e0) := by
  rw [find?_eq_head?_filter, find?_eq_head?_filter, filter_sameCoord_sortEntries]

theorem lt_of_le_not_sameCoord {a b : Entry} (hle : Entry.le a b)
    (h : ¬ sameCoord b a = true) : Entry.lt a b := by
  rw [sameCoord_iff] at h
  unfold Entry.le at hle
  unfold Entry.lt
  by_cases hx : a.x = b.x
  · right
    refine ⟨hx, ?_⟩
    rcases hle with h1 | h2
    · omega
    · rcases Nat.lt_or_ge b.y a.y with h3 | h3
      · omega
      · rcases Nat.eq_or_lt_of_le h3 with h4 | h4
        · exact absurd ⟨hx.symm, h4.symm⟩ h
        · omega
  · left
    omega

theorem dedupEntries_pairwise_lt :
    ∀ (l : List Entry), l.Pairwise Entry.le → (dedupEntries l).Pairwise Entry.lt
  | [], _ => by simp [dedupEntries]
  | a :: t, hl => by
    have hat : ∀ b ∈ t, Entry.le a b := (List.pairwise_cons.mp hl).1
    have ht : t.Pairwise Entry.le := (List.pairwise_cons.mp hl).2
    rw [dedupEntries_cons, dropWhile_sameCoord_of_sorted ht hat]
    rw [List.pairwise_cons]
    refine ⟨?_, dedupEntries_pairwise_lt _ (ht.filter _)⟩
    intro e he
    have hef := mem_of_mem_dedupEntries he
    have hmem := (List.mem_filter.mp hef).1
    have hns := (List.mem_filter.mp hef).2
    simp only [Bool.not_eq_true', Bool.not_eq_false] at hns
    exact lt_of_le_not_sameCoord (hat e hmem) (by simp [hns])
  termination_by l => l.length
  decreasing_by
    simp only [List.length_cons]
    exact Nat.lt_succ_of_le (List.length_filter_le _ _)

theorem mem_canonicalEntries (entries : List Entry) (e : Entry) :
    e ∈ canonicalEntries entries ↔
      (combinedEntries entries).find? (fun a => sameCoord a e) = some e := by
  rw [canonicalEntries,
    mem_dedupEntries_sorted _ (sortEntries_pairwise (combinedEntries entries)) e,
    find?_sameCoord_sortEntries]

theorem canonicalEntries_pairwise_lt (entries : List Entry) :
    (canonicalEntries entries).Pairwise Entry.lt :=
  dedupEntries_pairwise_lt _ (sortEntries_pairwise (combinedEntries entries))

theorem mem_combined_of_mem_canonical {entries : List Entry} {e : Entry}
    (h : e ∈ canonicalEntries entries) : e ∈ combinedEntries entries :=
  (sortEntries_perm (combinedEntries entries)).mem_iff.mp (mem_of_mem_dedupEntries h)

theorem bucket_fold_indices :
    ∀ (es : List Entry) (A : List (List ℕ)), (∀ e ∈ es, e.x < A.length) → ∀ a : ℕ,
      (es.foldl (fun ind e => ind.set e.x (ind.getD e.x [] ++ [e.y])) A).getD a [] =
        A.getD a [] ++ (es.filter (fun e => e.x == a)).map (fun e => e.y)
  | [], A, _, a => by simp
  | e :: es, A, h, a => by
    have he : e.x < A.length := h e (List.mem_cons_self _ _)
    have hlen : (A.set e.x (A.getD e.x [] ++ [e.y])).length = A.length :=
      List.length_set A _ _
    have hrest : ∀ b ∈ es, b.x < (A.set e.x (A.getD e.x [] ++ [e.y])).length := by
      intro b hb
      rw [hlen]
      exact h b (List.mem_cons_of_mem _ hb)
    rw [List.foldl_cons, bucket_fold_indices es _ hrest a]
    by_cases hxa : e.x = a
    · subst hxa
      rw [List.filter_cons_of_pos (by simp), List.map_cons]
      rw [List.getD_eq_getElem?_getD, List.getElem?_set_self he, Option.getD_some,
        List.append_assoc, List.singleton_append]
    · rw [List.filter_cons_of_neg (by simp [hxa])]
      rw [List.getD_eq_getElem?_getD, List.getElem?_set_ne (by omega),
        ← List.getD_eq_getElem?_getD]

theorem bucket_fold_values :
    ∀ (es : List Entry) (A : List (List Fl)), (∀ e ∈ es, e.x < A.length) → ∀ a : ℕ,
      (es.foldl (fun vls e => vls.set e.x (vls.getD e.x [] ++ [e.v])) A).getD a [] =
        A.getD a [] ++ (es.filter (fun e => e.x == a)).map (fun e => e.v)
  | [], A, _, a => by simp
  | e :: es, A, h, a => by
    have he : e.x < A.length := h e (List.mem_cons_self _ _)
    have hlen : (A.set e.x (A.getD e.x [] ++ [e.v])).length = A.length :=
      List.length_set A _ _
    have hrest : ∀ b ∈ es, b.x < (A.set e.x (A.getD e.x [] ++ [e.v])).length := by
      intro b hb
      rw [hlen]
      exact h b (List.mem_cons_of_mem _ hb)
    rw [List.foldl_cons, bucket_fold_values es _ hrest a]
    by_cases hxa : e.x = a
    · subst hxa
      rw [List.filter_cons_of_pos (by simp), List.map_cons]
      rw [List.getD_eq_getElem?_getD, List.getElem?_set_self he, Option.getD_some,
        List.append_assoc, List.singleton_append]
    · rw [List.filter_cons_of_neg (by simp [hxa])]
      rw [List.getD_eq_getElem?_getD, List.getElem?_set_ne (by omega),
        ← List.getD_eq_getElem?_getD]

theorem getD_replicate_nil (n a : ℕ) :
    (List.replicate n ([] : List ℕ)).getD a [] = [] := by
  rw [List.getD_eq_getElem?_getD, List.getElem?_replicate]
  by_cases h : a < n <;> simp [h]

theorem getD_replicate_nil_fl (n a : ℕ) :
    (List.replicate n ([] : List Fl)).getD a [] = [] := by
  rw [List.getD_eq_getElem?_getD, List.getElem?_replicate]
  by_cases h : a < n <;> simp [h]

theorem foldl_max_init_le :
    ∀ (l : List Entry) (init : ℕ),
      init ≤ l.foldl (fun acc e => max acc (max e.x e.y)) init
  | [], _ => Nat.le_refl _
  | e :: l, init => by
    rw [List.foldl_cons]
    exact Nat.le_trans (Nat.le_max_left _ _) (foldl_max_init_le l _)

theorem le_foldl_max :
    ∀ (l : List Entry) (init : ℕ) (e : Entry), e ∈ l →
      max e.x e.y ≤ l.foldl (fun acc e => max acc (max e.x e.y)) init
  | [], _, _, h => absurd h (List.not_mem_nil _)
  | a :: l, init, e, h => by
    rw [List.foldl_cons]
    rcases List.mem_cons.mp h with rfl | h2
    · exact Nat.le_trans (Nat.le_max_right _ _) (foldl_max_init_le l _)
    · exact le_foldl_max l _ e h2

theorem foldl_max_cases :
    ∀ (l : List Entry) (init : ℕ),
      l.foldl (fun acc e => max acc (max e.x e.y)) init = init ∨
        ∃ e ∈ l, l.foldl (fun acc e => max acc (max e.x e.y)) init = max e.x e.y
  | [], _ => Or.inl rfl
  | a :: l, init => by
    rw [List.foldl_cons]
    rcases foldl_max_cases l (max init (max a.x a.y)) with h | ⟨e, he, h⟩
    · rcases Nat.le_total init (max a.x a.y) with h2 | h2
      · refine Or.inr ⟨a, List.mem_cons_self _ _, ?_⟩
        rw [h, Nat.max_eq_right h2]
      · refine Or.inl ?_
        rw [h, Nat.max_eq_left h2]
    · exact Or.inr ⟨e, List.mem_cons_of_mem _ he, h⟩

theorem le_maxCoord {l : List Entry} {e : Entry} (h : e ∈ l) :
    max e.x e.y ≤ maxCoord l :=
  le_foldl_max l 0 e h

theorem new_length_eq (entries : List Entry) :
    (SparseSymmetricMatrix.new entries).length = maxCoord (canonicalEntries entries) := rfl

theorem canonical_x_lt (entries : List Entry) :
    ∀ e ∈ canonicalEntries entries,
      e.x < maxCoord (canonicalEntries entries) + 1 := by
  intro e he
  have := le_maxCoord he
  omega

theorem new_indices_getD (entries : List Entry) (a : ℕ) :
    (SparseSymmetricMatrix.new entries).indices.getD a [] =
      ((canonicalEntries entries).filter (fun e => e.x == a)).map (fun e => e.y) := by
  show (bucketIndices (maxCoord (canonicalEntries entries) + 1)
      (canonicalEntries entries)).getD a [] = _
  rw [bucketIndices, bucket_fold_indices _ _ (by
    rw [List.length_replicate]
    exact canonical_x_lt entries), getD_replicate_nil, List.nil_append]

theorem new_values_getD (entries : List Entry) (a : ℕ) :
    (SparseSymmetricMatrix.new entries).values.getD a [] =
      ((canonicalEntries entries).filter (fun e => e.x == a)).map (fun e => e.v) := by
  show (bucketValues (maxCoord (canonicalEntries entries) + 1)
      (canonicalEntries entries)).getD a [] = _
  rw [bucketValues, bucket_fold_values _ _ (by
    rw [List.length_replicate]
    exact canonical_x_lt entries), getD_replicate_nil_fl, List.nil_append]

theorem stored_iff_mem_canonical (entries : List Entry) (i j : ℕ) (v : Fl) :
    (SparseSymmetricMatrix.new entries).stored i j v ↔
      (⟨i, j, v⟩ : Entry) ∈ canonicalEntries entries := by
  unfold SparseSymmetricMatrix.stored
  rw [new_indices_getD, new_values_getD, List.zip_map']
  rw [List.mem_map]
  constructor
  · rintro ⟨e, he, heq⟩
    have hx : e.x = i := by simpa using (List.mem_filter.mp he).1 |> fun _ =>
      (by simpa using (List.mem_filter.mp he).2)
    have hmem := (List.mem_filter.mp he).1
    injection heq with h1 h2
    have : e = ⟨i, j, v⟩ := by
      cases e
      simp_all
    exact this ▸ hmem
  · intro h
    refine ⟨⟨i, j, v⟩, ?_, rfl⟩
    rw [List.mem_filter]
    exact ⟨h, by simp⟩

theorem stored_iff_find (entries : List Entry) (i j : ℕ) (v : Fl) :
    (SparseSymmetricMatrix.new entries).stored i j v ↔
      (combinedEntries entries).find? (coordIs i j) = some ⟨i, j, v⟩ := by
  rw [stored_iff_mem_canonical, mem_canonicalEntries]
  have : (fun a => sameCoord a ⟨i, j, v⟩) = coordIs i j := by
    funext a
    rfl
  rw [this]

theorem mem_lower_le {entries : List Entry} {e : Entry}
    (h : e ∈ entries.map Entry.lower_triangle) : e.x ≤ e.y := by
  rcases List.mem_map.mp h with ⟨e0, _, rfl⟩
  exact min_le_max

theorem mem_mirror_gt {entries : List Entry} {e : Entry}
    (h : e ∈ ((entries.map Entry.lower_triangle).filter
      (fun e => e.x != e.y)).map Entry.symmetric) : e.y < e.x := by
  rcases List.mem_map.mp h with ⟨e0, he0, rfl⟩
  have h1 : e0.x ≤ e0.y := mem_lower_le (List.mem_filter.mp he0).1
  have h2 := (List.mem_filter.mp he0).2
  simp only [bne_iff_ne, ne_eq, decide_eq_true_eq] at h2
  show e0.x < e0.y
  omega

theorem find?_coordIs_lower_none {entries : List Entry} {i j : ℕ} (hij : j < i) :
    (entries.map Entry.lower_triangle).find? (coordIs i j) = none := by
  rw [List.find?_eq_none]
  intro e he hc
  rcases (by simpa [coordIs] using hc : e.x = i ∧ e.y = j) with ⟨hx, hy⟩
  have := mem_lower_le he
  omega

theorem find?_coordIs_mirror_none {entries : List Entry} {i j : ℕ} (hij : i ≤ j) :
    (((entries.map Entry.lower_triangle).filter
      (fun e => e.x != e.y)).map Entry.symmetric).find? (coordIs i j) = none := by
  rw [List.find?_eq_none]
  intro e he hc
  rcases (by simpa [coordIs] using hc : e.x = i ∧ e.y = j) with ⟨hx, hy⟩
  have := mem_mirror_gt he
  omega

theorem find?_coordIs_mirror {entries : List Entry} {i j : ℕ} (hne : i ≠ j) :
    (((entries.map Entry.lower_triangle).filter
        (fun e => e.x != e.y)).map Entry.symmetric).find? (coordIs i j) =
      Option.map Entry.symmetric
        ((entries.map Entry.lower_triangle).find? (coordIs j i)) := by
  rw [List.find?_map]
  have h1 : (coordIs i j) ∘ Entry.symmetric = coordIs j i := by
    funext a
    simp [coordIs, Entry.symmetric, Function.comp, Bool.and_comm]
  rw [h1]
  rw [find?_filter_of_imp]
  intro a ha
  rcases (by simpa [coordIs] using ha : a.x = j ∧ a.y = i) with ⟨hx, hy⟩
  simp [bne_iff_ne, hx, hy]
  omega

/-- C1: in the matrix returned by `SparseSymmetricMatrix::new`, every stored
off-diagonal pair has its mirror stored with the same value: if `(i, j, v)`
is stored with `i ≠ j` then `(j, i, v)` is also stored, for every entry
list, including lists with conflicting duplicates at a coordinate. -/
theorem spec_c1 (entries : List Entry) (i j : ℕ) (v : Fl) (hne : i ≠ j)
    (h : (SparseSymmetricMatrix.new entries).stored i j v) :
    (SparseSymmetricMatrix.new entries).stored j i v := by
  rw [stored_iff_find] at h ⊢
  rw [combinedEntries, List.find?_append] at h ⊢
  rcases Nat.lt_or_ge j i with hij | hij
  · rw [find?_coordIs_lower_none hij, Option.none_or, find?_coordIs_mirror hne] at h
    cases hfind : (entries.map Entry.lower_triangle).find? (coordIs j i) with
    | none => rw [hfind] at h; cases h
    | some u =>
      rw [hfind] at h
      simp only [Option.map_some'] at h
      injection h with h
      have hu : u = ⟨j, i, v⟩ := by
        cases u
        injection h with h1 h2 h3
        subst h1
        subst h2
        subst h3
        rfl
      rw [hu]
      rfl
  · have hij2 : i < j := by omega
    rw [find?_coordIs_mirror_none (Nat.le_of_lt hij2), Option.or_none] at h
    rw [find?_coordIs_lower_none hij2, Option.none_or,
      find?_coordIs_mirror (Ne.symm hne), h]
    rfl

/-- Witness for C1 on an input with conflicting duplicates at canonical
coordinate `(0, 1)`: the kept value `2` is stored on both sides. -/
theorem spec_c1_witness :
    (0 : ℕ) ≠ 1 ∧
    (SparseSymmetricMatrix.new
      [⟨0, 1, Fl.fin 2⟩, ⟨1, 0, Fl.fin 3⟩]).stored 0 1 (Fl.fin 2) ∧
    (SparseSymmetricMatrix.new
      [⟨0, 1, Fl.fin 2⟩, ⟨1, 0, Fl.fin 3⟩]).stored 1 0 (Fl.fin 2) :=
  ⟨by decide, by decide,
    spec_c1 [⟨0, 1, Fl.fin 2⟩, ⟨1, 0, Fl.fin 3⟩] 0 1 (Fl.fin 2) (by decide) (by decide)⟩

/-- C3: when the same canonical (row-minor) coordinate `(a, b)` occurs more
than once, the matrix retains the value of the first such entry in input
order and discards the later ones: if the first input entry whose canonical
form sits at `(a, b)` is `e0`, then `(a, b, e0.v)` is stored and every
value stored at `(a, b)` equals `e0.v`. -/
theorem spec_c3 (entries : List Entry) (a b : ℕ) (e0 : Entry)
    (h : entries.find? (fun e => min e.x e.y == a && max e.x e.y == b) = some e0) :
    (SparseSymmetricMatrix.new entries).stored a b e0.v ∧
      ∀ v : Fl, (SparseSymmetricMatrix.new entries).stored a b v → v = e0.v := by
  have hfirst : (entries.map Entry.lower_triangle).find? (coordIs a b) =
      some ⟨a, b, e0.v⟩ := by
    rw [List.find?_map]
    have hp : (coordIs a b) ∘ Entry.lower_triangle =
        (fun e => min e.x e.y == a && max e.x e.y == b) := by
      funext e
      rfl
    rw [hp, h]
    have hps := List.find?_some h
    rcases (by simpa using hps : min e0.x e0.y = a ∧ max e0.x e0.y = b) with ⟨h1, h2⟩
    simp [Entry.lower_triangle, h1, h2]
  have hc : (combinedEntries entries).find? (coordIs a b) = some ⟨a, b, e0.v⟩ := by
    rw [combinedEntries, List.find?_append, hfirst]
    rfl
  constructor
  · rw [stored_iff_find]
    exact hc
  · intro v hv
    rw [stored_iff_find] at hv
    rw [hv] at hc
    simpa using hc

/-- Witness for C3: three inputs collide at canonical coordinate `(0, 1)`;
the first one (value `2`) is kept, later values `3` and `4` are dropped. -/
theorem spec_c3_witness :
    ([⟨0, 1, Fl.fin 2⟩, ⟨1, 0, Fl.fin 3⟩, ⟨0, 1, Fl.fin 4⟩] : List Entry).find?
        (fun e => min e.x e.y == 0 && max e.x e.y == 1) = some ⟨0, 1, Fl.fin 2⟩ ∧
    ((SparseSymmetricMatrix.new
        [⟨0, 1, Fl.fin 2⟩, ⟨1, 0, Fl.fin 3⟩, ⟨0, 1, Fl.fin 4⟩]).stored 0 1
        (Entry.v ⟨0, 1, Fl.fin 2⟩) ∧
      ∀ v : Fl, (SparseSymmetricMatrix.new
        [⟨0, 1, Fl.fin 2⟩, ⟨1, 0, Fl.fin 3⟩, ⟨0, 1, Fl.fin 4⟩]).stored 0 1 v →
        v = Entry.v ⟨0, 1, Fl.fin 2⟩) :=
  ⟨by decide,
    spec_c3 [⟨0, 1, Fl.fin 2⟩, ⟨1, 0, Fl.fin 3⟩, ⟨0, 1, Fl.fin 4⟩] 0 1
      ⟨0, 1, Fl.fin 2⟩ (by decide)⟩

theorem new_row_length_eq (entries : List Entry) (i : ℕ) :
    ((SparseSymmetricMatrix.new entries).values.getD i []).length =
      ((SparseSymmetricMatrix.new entries).indices.getD i []).length := by
  rw [new_indices_getD, new_values_getD, List.length_map, List.length_map]

theorem new_row_pairwise (entries : List Entry) (i : ℕ) :
    ((SparseSymmetricMatrix.new entries).indices.getD i []).Pairwise (· < ·) := by
  rw [new_indices_getD]
  rw [List.pairwise_map]
  have hp := (canonicalEntries_pairwise_lt entries).filter (fun e => e.x == i)
  refine List.Pairwise.imp_of_mem ?_ hp
  intro a b ha hb hlt
  have hax : a.x = i := by simpa using (List.mem_filter.mp ha).2
  have hbx : b.x = i := by simpa using (List.mem_filter.mp hb).2
  unfold Entry.lt at hlt
  omega

/-- C6: in every constructed matrix, every row's column indices are
strictly increasing (so no coordinate repeats within a row) and the value
row has the same length as the index row. -/
theorem spec_c6 (entries : List Entry) (i : ℕ) :
    ((SparseSymmetricMatrix.new entries).indices.getD i []).Pairwise (· < ·) ∧
    ((SparseSymmetricMatrix.new entries).values.getD i []).length =
      ((SparseSymmetricMatrix.new entries).indices.getD i []).length :=
  ⟨new_row_pairwise entries i, new_row_length_eq entries i⟩

theorem combined_max_eq {entries : List Entry} {e1 : Entry}
    (h : e1 ∈ combinedEntries entries) :
    ∃ e ∈ entries, max e1.x e1.y = max e.x e.y := by
  rcases List.mem_append.mp h with h1 | h1
  · rcases List.mem_map.mp h1 with ⟨e, he, rfl⟩
    refine ⟨e, he, ?_⟩
    simp only [Entry.lower_triangle]
    omega
  · rcases List.mem_map.mp h1 with ⟨e2, he2, rfl⟩
    rcases List.mem_map.mp (List.mem_filter.mp he2).1 with ⟨e, he, rfl⟩
    refine ⟨e, he, ?_⟩
    simp only [Entry.symmetric, Entry.lower_triangle]
    omega

theorem entry_max_le_maxCoord {entries : List Entry} {e : Entry} (h : e ∈ entries) :
    max e.x e.y ≤ maxCoord (canonicalEntries entries) := by
  have hmem : Entry.lower_triangle e ∈ combinedEntries entries :=
    List.mem_append.mpr (Or.inl (List.mem_map_of_mem _ h))
  have hsome : ((combinedEntries entries).find?
      (fun a => sameCoord a (Entry.lower_triangle e))).isSome :=
    List.find?_isSome.mpr ⟨_, hmem, sameCoord_refl _⟩
  rcases Option.isSome_iff_exists.mp hsome with ⟨u, hu⟩
  have huc := List.find?_some hu
  rcases sameCoord_iff.mp huc with ⟨hx, hy⟩
  have humem : u ∈ canonicalEntries entries := by
    rw [mem_canonicalEntries]
    have hpred : (fun a => sameCoord a u) =
        (fun a => sameCoord a (Entry.lower_triangle e)) := by
      funext a
      simp [sameCoord, hx, hy]
    rw [hpred]
    exact hu
  have hle := le_maxCoord humem
  have hmax : max u.x u.y = max e.x e.y := by
    rw [hx, hy]
    simp only [Entry.lower_triangle]
    omega
  omega

theorem maxCoord_cases (l : List Entry) :
    maxCoord l = 0 ∨ ∃ e ∈ l, maxCoord l = max e.x e.y :=
  foldl_max_cases l 0

theorem maxCoord_attained {entries : List Entry} (hne : entries ≠ []) :
    ∃ e ∈ entries, max e.x e.y = maxCoord (canonicalEntries entries) := by
  have hCne : canonicalEntries entries ≠ [] := by
    have h1 : combinedEntries entries ≠ [] := by
      cases entries with
      | nil => exact absurd rfl hne
      | cons a t => simp [combinedEntries]
    have h2 : sortEntries (combinedEntries entries) ≠ [] := by
      intro hc
      have hl := (sortEntries_perm (combinedEntries entries)).length_eq
      rw [hc] at hl
      exact h1 (List.length_eq_zero.mp hl.symm)
    cases hs : sortEntries (combinedEntries entries) with
    | nil => exact absurd hs h2
    | cons a t =>
      rw [canonicalEntries, hs, dedupEntries]
      simp
  rcases List.exists_mem_of_ne_nil _ hCne with ⟨a, hmem⟩
  rcases maxCoord_cases (canonicalEntries entries) with h | ⟨e1, he1, h⟩
  · have hle := le_maxCoord hmem
    rcases combined_max_eq (mem_combined_of_mem_canonical hmem) with ⟨e, he, heq⟩
    exact ⟨e, he, by omega⟩
  · rcases combined_max_eq (mem_combined_of_mem_canonical he1) with ⟨e, he, heq⟩
    refine ⟨e, he, ?_⟩
    rw [← heq, h]

/-- C5: for every non-empty entry list, the `length` of the constructed
matrix is the maximum over all supplied entries' row and column indices:
every index is bounded by it and some entry attains it (so the dimension,
`length + 1`, is one more than that maximum). -/
theorem spec_c5 (entries : List Entry) (hne : entries ≠ []) :
    (∀ e ∈ entries, e.x ≤ (SparseSymmetricMatrix.new entries).length ∧
      e.y ≤ (SparseSymmetricMatrix.new entries).length) ∧
    ∃ e ∈ entries, max e.x e.y = (SparseSymmetricMatrix.new entries).length := by
  rw [new_length_eq]
  constructor
  · intro e he
    have := entry_max_le_maxCoord he
    omega
  · exact maxCoord_attained hne

/-- Witness for C5 at the regression entry list of `src/main.rs`. -/
theorem spec_c5_witness :
    mainEntries ≠ [] ∧
    ((∀ e ∈ mainEntries, e.x ≤ (SparseSymmetricMatrix.new mainEntries).length ∧
        e.y ≤ (SparseSymmetricMatrix.new mainEntries).length) ∧
      ∃ e ∈ mainEntries, max e.x e.y = (SparseSymmetricMatrix.new mainEntries).length) :=
  ⟨by decide, spec_c5 mainEntries (by decide)⟩

/-- C4, counterexample: on the empty entry list `SparseSymmetricMatrix::new`
does not fail and returns the degenerate 1×1 zero matrix — dimension
`length + 1 = 1` with a single empty row — not a 0-dimension matrix and
not a rejection, contradicting the claim. -/
theorem spec_c4_counterexample :
    (SparseSymmetricMatrix.new ([] : List Entry)).length + 1 = 1 ∧
    (SparseSymmetricMatrix.new ([] : List Entry)).indices = [[]] ∧
    (SparseSymmetricMatrix.new ([] : List Entry)).values = [[]] := by
  decide

/-- C4, amended: `SparseSymmetricMatrix::new` never fails on the empty
entry list, and yields the degenerate 1×1 zero matrix (`length` 0, one
empty row of indices and one empty row of values). -/
theorem spec_c4_amended :
    SparseSymmetricMatrix.new ([] : List Entry) =
      ⟨0, [[]], [[]]⟩ := by
  decide

/-- Coordinate key of an entry, used to compare entries up to value. -/
def entryKey (e : Entry) : ℕ × ℕ := (e.x, e.y)

theorem combined_keys_nodup {entries : List Entry}
    (hnodup : (entries.map (fun e => (min e.x e.y, max e.x e.y))).Nodup) :
    ((combinedEntries entries).map entryKey).Nodup := by
  rw [combinedEntries, List.map_append]
  have hL : ((entries.map Entry.lower_triangle).map entryKey).Nodup := by
    rw [List.map_map]
    have hcomp : entryKey ∘ Entry.lower_triangle =
        (fun e => (min e.x e.y, max e.x e.y)) := by
      funext e
      rfl
    rw [hcomp]
    exact hnodup
  have hM : ((((entries.map Entry.lower_triangle).filter
      (fun e => e.x != e.y)).map Entry.symmetric).map entryKey).Nodup := by
    rw [List.map_map]
    have h1 : entryKey ∘ Entry.symmetric = Prod.swap ∘ entryKey := by
      funext e
      rfl
    rw [h1, ← List.map_map]
    apply List.Nodup.map Prod.swap_injective
    have hsub : List.Sublist
        ((entries.map Entry.lower_triangle).filter (fun e => e.x != e.y))
        (entries.map Entry.lower_triangle) := List.filter_sublist _
    exact (hsub.map entryKey).nodup hL
  rw [List.nodup_append]
  refine ⟨hL, hM, ?_⟩
  intro k hkL hkM
  rcases List.mem_map.mp hkL with ⟨e1, he1, rfl⟩
  rcases List.mem_map.mp hkM with ⟨e2, he2, hk⟩
  have h1 : e1.x ≤ e1.y := mem_lower_le he1
  have h2 : e2.y < e2.x := mem_mirror_gt he2
  have hk2 : e2.x = e1.x ∧ e2.y = e1.y := by
    rw [entryKey, entryKey, Prod.mk.injEq] at hk
    exact hk
  omega

theorem sorted_strict_of_nodup_keys {l : List Entry}
    (hs : l.Pairwise Entry.le) (hn : (l.map entryKey).Nodup) :
    l.Pairwise Entry.lt := by
  have h1 : l.Pairwise (fun a b => entryKey a ≠ entryKey b) :=
    List.pairwise_map.mp hn
  refine (hs.and h1).imp ?_
  rintro a b ⟨hle, hne⟩
  have h2 : ¬ (a.x = b.x ∧ a.y = b.y) := by
    intro h3
    exact hne (by simp [entryKey, h3.1, h3.2])
  unfold Entry.le at hle
  unfold Entry.lt
  omega

/-- C7: two entry lists that are permutations of each other, with no two
entries at the same canonical (row-minor) coordinate, build identical
matrices. -/
theorem spec_c7 (entries1 entries2 : List Entry) (hperm : entries1.Perm entries2)
    (hnodup : (entries1.map (fun e => (min e.x e.y, max e.x e.y))).Nodup) :
    SparseSymmetricMatrix.new entries1 = SparseSymmetricMatrix.new entries2 := by
  have hcomb : (combinedEntries entries1).Perm (combinedEntries entries2) := by
    unfold combinedEntries
    exact (hperm.map _).append (((hperm.map _).filter _).map _)
  have hS : (sortEntries (combinedEntries entries1)).Perm
      (sortEntries (combinedEntries entries2)) :=
    ((sortEntries_perm _).trans hcomb).trans (sortEntries_perm _).symm
  have hk1 : ((combinedEntries entries1).map entryKey).Nodup :=
    combined_keys_nodup hnodup
  have hk2 : ((combinedEntries entries2).map entryKey).Nodup :=
    (hcomb.map entryKey).nodup hk1
  have hs1 : (sortEntries (combinedEntries entries1)).Pairwise Entry.lt :=
    sorted_strict_of_nodup_keys (sortEntries_pairwise _)
      ((((sortEntries_perm _).map entryKey).symm).nodup hk1)
  have hs2 : (sortEntries (combinedEntries entries2)).Pairwise Entry.lt :=
    sorted_strict_of_nodup_keys (sortEntries_pairwise _)
      ((((sortEntries_perm _).map entryKey).symm).nodup hk2)
  have heq : sortEntries (combinedEntries entries1) =
      sortEntries (combinedEntries entries2) :=
    List.eq_of_perm_of_sorted hS hs1 hs2
  unfold SparseSymmetricMatrix.new
  rw [heq]

/-- Witness for C7: the same two duplicate-free entries in both orders
yield the same matrix. -/
theorem spec_c7_witness :
    ([⟨0, 1, Fl.fin 2⟩, ⟨2, 2, Fl.fin 3⟩] : List Entry).Perm
      [⟨2, 2, Fl.fin 3⟩, ⟨0, 1, Fl.fin 2⟩] ∧
    (([⟨0, 1, Fl.fin 2⟩, ⟨2, 2, Fl.fin 3⟩] : List Entry).map
      (fun e => (min e.x e.y, max e.x e.y))).Nodup ∧
    SparseSymmetricMatrix.new [⟨0, 1, Fl.fin 2⟩, ⟨2, 2, Fl.fin 3⟩] =
      SparseSymmetricMatrix.new [⟨2, 2, Fl.fin 3⟩, ⟨0, 1, Fl.fin 2⟩] :=
  ⟨List.Perm.swap _ _ _, by decide,
    spec_c7 _ _ (List.Perm.swap _ _ _) (by decide)⟩

/-- Flat value array accumulated after processing rows `0 .. n` of the
`SparseRowMatrix::new` loop. -/
def crsVals (m : SparseSymmetricMatrix) (n : ℕ) : List Fl :=
  ((List.range n).map (rowVals m)).flatten

/-- Flat column array accumulated after processing rows `0 .. n` of the
`SparseRowMatrix::new` loop. -/
def crsCols (m : SparseSymmetricMatrix) (n : ℕ) : List ℕ :=
  ((List.range n).map (fun i => m.indices.getD i [])).flatten

theorem crsVals_succ (m : SparseSymmetricMatrix) (n : ℕ) :
    crsVals m (n + 1) = crsVals m n ++ rowVals m n := by
  rw [crsVals, crsVals, List.range_succ, List.map_append, List.flatten_append]
  simp

theorem crsCols_succ (m : SparseSymmetricMatrix) (n : ℕ) :
    crsCols m (n + 1) = crsCols m n ++ m.indices.getD n [] := by
  rw [crsCols, crsCols, List.range_succ, List.map_append, List.flatten_append]
  simp

theorem crs_fold (m : SparseSymmetricMatrix) :
    ∀ n : ℕ, (List.range n).foldl (crsStep m) ([], [], [0]) =
      (crsVals m n, crsCols m n,
        (List.range (n + 1)).map (fun i => (crsVals m i).length))
  | 0 => rfl
  | n + 1 => by
    rw [List.range_succ, List.foldl_append, crs_fold m n, List.foldl_cons,
      List.foldl_nil]
    simp only [crsStep]
    rw [← crsVals_succ, ← crsCols_succ]
    refine congrArg (fun p => (crsVals m (n + 1), crsCols m (n + 1), p)) ?_
    rw [show n + 1 + 1 = (n + 1) + 1 from rfl, List.range_succ (n + 1),
      List.map_append, List.map_singleton]

theorem srm_new_eq (m : SparseSymmetricMatrix) :
    SparseRowMatrix.new m =
      ⟨crsVals m (m.length + 1), crsCols m (m.length + 1),
        (List.range (m.length + 2)).map (fun i => (crsVals m i).length)⟩ := by
  unfold SparseRowMatrix.new
  rw [crs_fold]

theorem getD_map_range {α : Type} {f : ℕ → α} {k i : ℕ} (h : i < k) (d : α) :
    ((List.range k).map f).getD i d = f i := by
  rw [List.getD_eq_getElem?_getD, List.getElem?_map, List.getElem?_range h]
  rfl

theorem srm_len (m : SparseSymmetricMatrix) :
    (SparseRowMatrix.new m).len = m.length + 1 := by
  rw [srm_new_eq]
  show ((List.range (m.length + 2)).map _).length - 1 = _
  rw [List.length_map, List.length_range]
  omega

theorem srm_ptr_getD (m : SparseSymmetricMatrix) {i : ℕ} (h : i < m.length + 2) :
    (SparseRowMatrix.new m).row_pointers.getD i 0 = (crsVals m i).length := by
  rw [srm_new_eq]
  exact getD_map_range h 0

theorem rowVals_length (m : SparseSymmetricMatrix) (i : ℕ) :
    (rowVals m i).length = (m.indices.getD i []).length := by
  rw [rowVals, List.length_map, List.length_range]

theorem crs_len_eq (m : SparseSymmetricMatrix) :
    ∀ n : ℕ, (crsVals m n).length = (crsCols m n).length
  | 0 => rfl
  | n + 1 => by
    rw [crsVals_succ, crsCols_succ, List.length_append, List.length_append,
      crs_len_eq m n, rowVals_length]

theorem crsVals_length_mono (m : SparseSymmetricMatrix) {i j : ℕ} (h : i ≤ j) :
    (crsVals m i).length ≤ (crsVals m j).length := by
  induction j with
  | zero =>
    have : i = 0 := by omega
    subst this
    exact Nat.le_refl _
  | succ j ih =>
    rcases Nat.eq_or_lt_of_le h with rfl | h2
    · exact Nat.le_refl _
    · have h3 : i ≤ j := by omega
      refine Nat.le_trans (ih h3) ?_
      rw [crsVals_succ, List.length_append]
      omega

theorem crs_split_vals (m : SparseSymmetricMatrix) {i : ℕ} :
    ∀ {n : ℕ}, i < n → ∃ w, crsVals m n = crsVals m i ++ rowVals m i ++ w := by
  intro n
  induction n with
  | zero => omega
  | succ n ih =>
    intro h
    rcases Nat.lt_or_ge i n with h2 | h2
    · rcases ih h2 with ⟨w, hw⟩
      refine ⟨w ++ rowVals m n, ?_⟩
      rw [crsVals_succ, hw]
      simp [List.append_assoc]
    · have h3 : i = n := by omega
      subst h3
      exact ⟨[], by rw [crsVals_succ]; simp⟩

theorem crs_split_cols (m : SparseSymmetricMatrix) {i : ℕ} :
    ∀ {n : ℕ}, i < n → ∃ w, crsCols m n = crsCols m i ++ m.indices.getD i [] ++ w := by
  intro n
  induction n with
  | zero => omega
  | succ n ih =>
    intro h
    rcases Nat.lt_or_ge i n with h2 | h2
    · rcases ih h2 with ⟨w, hw⟩
      refine ⟨w ++ m.indices.getD n [], ?_⟩
      rw [crsCols_succ, hw]
      simp [List.append_assoc]
    · have h3 : i = n := by omega
      subst h3
      exact ⟨[], by rw [crsCols_succ]; simp⟩

theorem mapRangeGetD {α : Type} :
    ∀ (l : List α) (d : α), (List.range l.length).map (fun j => l.getD j d) = l
  | [], _ => rfl
  | a :: t, d => by
    rw [List.length_cons, List.range_succ_eq_map, List.map_cons, List.map_map]
    have hcomp : ((fun j => (a :: t).getD j d) ∘ Nat.succ) = (fun j => t.getD j d) := by
      funext j
      simp
    rw [hcomp, mapRangeGetD t d]
    simp

theorem rowVals_new (entries : List Entry) (i : ℕ) :
    rowVals (SparseSymmetricMatrix.new entries) i =
      (SparseSymmetricMatrix.new entries).values.getD i [] := by
  rw [rowVals, ← new_row_length_eq, mapRangeGetD]

theorem getD_append_cons {α : Type} (pre : List α) (v : α) (t : List α) (d : α) :
    (pre ++ v :: t).getD pre.length d = v := by
  rw [List.getD_eq_getElem?_getD, List.getElem?_append_right (Nat.le_refl _)]
  simp

theorem segment_fold (x : List ℚ) :
    ∀ (rowV : List Fl) (rowC : List ℕ) (preV : List Fl) (preC : List ℕ)
      (postV : List Fl) (postC : List ℕ), rowV.length = rowC.length →
      preV.length = preC.length → ∀ acc : ℚ,
      (List.range' preV.length rowV.length).foldl
        (fun a j => a + ((preV ++ rowV ++ postV).getD j default).q *
          x.getD ((preC ++ rowC ++ postC).getD j 0) 0) acc =
      (rowC.zip rowV).foldl (fun a p => a + p.2.q * x.getD p.1 0) acc
  | [], [], _, _, _, _, _, _, acc => by simp
  | [], c :: rc, _, _, _, _, h, _, acc => by simp at h
  | v :: rv, [], _, _, _, _, h, _, acc => by simp at h
  | v :: rv, c :: rc, preV, preC, postV, postC, h, hpre, acc => by
    rw [List.length_cons, List.range'_succ, List.foldl_cons]
    have hv : (preV ++ (v :: rv) ++ postV).getD preV.length default = v := by
      rw [List.append_assoc, List.cons_append]
      exact getD_append_cons preV v (rv ++ postV) default
    have hc : (preC ++ (c :: rc) ++ postC).getD preV.length 0 = c := by
      rw [List.append_assoc, List.cons_append, hpre]
      exact getD_append_cons preC c (rc ++ postC) 0
    rw [hv, hc]
    have hassocV : preV ++ (v :: rv) ++ postV = (preV ++ [v]) ++ rv ++ postV := by
      simp
    have hassocC : preC ++ (c :: rc) ++ postC = (preC ++ [c]) ++ rc ++ postC := by
      simp
    have hlenV : preV.length + 1 = (preV ++ [v]).length := by
      simp
    have hrec := segment_fold x rv rc (preV ++ [v]) (preC ++ [c]) postV postC
      (by simpa using h) (by simp [hpre]) (acc + v.q * x.getD c 0)
    rw [hassocV, hassocC, hlenV, hrec]
    simp

theorem matvec_new (entries : List Entry) (x : List ℚ) :
    (SparseRowMatrix.new (SparseSymmetricMatrix.new entries)).matvec x =
      (List.range ((SparseSymmetricMatrix.new entries).length + 1)).map (fun i =>
        (((SparseSymmetricMatrix.new entries).indices.getD i []).zip
          ((SparseSymmetricMatrix.new entries).values.getD i [])).foldl
          (fun acc p => acc + p.2.q * x.getD p.1 0) 0) := by
  rw [SparseRowMatrix.matvec, srm_len]
  apply List.map_congr_left
  intro i hi
  have hi2 : i < (SparseSymmetricMatrix.new entries).length + 1 := List.mem_range.mp hi
  rw [srm_ptr_getD _ (by omega), srm_ptr_getD _ (by omega)]
  have hvals : (SparseRowMatrix.new (SparseSymmetricMatrix.new entries)).values =
      crsVals (SparseSymmetricMatrix.new entries)
        ((SparseSymmetricMatrix.new entries).length + 1) := by
    rw [srm_new_eq]
  have hcols : (SparseRowMatrix.new (SparseSymmetricMatrix.new entries)).column_index =
      crsCols (SparseSymmetricMatrix.new entries)
        ((SparseSymmetricMatrix.new entries).length + 1) := by
    rw [srm_new_eq]
  rw [hvals, hcols]
  rcases crs_split_vals (SparseSymmetricMatrix.new entries) hi2 with ⟨wv, hwv⟩
  rcases crs_split_cols (SparseSymmetricMatrix.new entries) hi2 with ⟨wc, hwc⟩
  rw [hwv, hwc, crsVals_succ, List.length_append, Nat.add_sub_cancel_left]
  have hseg := segment_fold x (rowVals (SparseSymmetricMatrix.new entries) i)
    ((SparseSymmetricMatrix.new entries).indices.getD i [])
    (crsVals (SparseSymmetricMatrix.new entries) i)
    (crsCols (SparseSymmetricMatrix.new entries) i) wv wc
    (rowVals_length _ i) (crs_len_eq _ i) 0
  rw [hseg, rowVals_new]

/-- C2: applying the compressed view of a constructed matrix to a vector of
matching dimension succeeds, and component `i` of the result is the
left-to-right sum, over row `i`'s stored `(column, value)` pairs in the
matrix's stored per-row order, of `value * x[column]`. -/
theorem spec_c2 (entries : List Entry) (x : List ℚ)
    (hlen : x.length = (SparseSymmetricMatrix.new entries).length + 1)
    (hval : (SparseRowMatrix.new (SparseSymmetricMatrix.new entries)).is_valid = true) :
    (SparseRowMatrix.new (SparseSymmetricMatrix.new entries)).apply x =
      Except.ok ((List.range ((SparseSymmetricMatrix.new entries).length + 1)).map
        (fun i =>
          (((SparseSymmetricMatrix.new entries).indices.getD i []).zip
            ((SparseSymmetricMatrix.new entries).values.getD i [])).foldl
            (fun acc p => acc + p.2.q * x.getD p.1 0) 0)) := by
  unfold SparseRowMatrix.apply
  rw [if_neg (by rw [srm_len, hlen]; exact fun hcc => hcc rfl),
    if_neg (by simp [hval]), matvec_new]

/-- The entry list of the `test_sparse_multiplication` unit test in
`src/main.rs` (1.5, 5.5, 6.5, 2.5, 8.5, 9.5 as exact rationals). -/
def testEntries : List Entry :=
  [⟨0, 0, Fl.fin (3 / 2)⟩, ⟨0, 1, Fl.fin (11 / 2)⟩, ⟨0, 2, Fl.fin (13 / 2)⟩,
   ⟨1, 1, Fl.fin (5 / 2)⟩, ⟨1, 2, Fl.fin (17 / 2)⟩, ⟨2, 2, Fl.fin (19 / 2)⟩]

/-- Witness for C2 on the `test_sparse_multiplication` matrix applied to
the vector `[3, 2, 1]`. -/
theorem spec_c2_witness :
    ([3, 2, 1] : List ℚ).length = (SparseSymmetricMatrix.new testEntries).length + 1 ∧
    (SparseRowMatrix.new (SparseSymmetricMatrix.new testEntries)).is_valid = true ∧
    (SparseRowMatrix.new (SparseSymmetricMatrix.new testEntries)).apply [3, 2, 1] =
      Except.ok ((List.range ((SparseSymmetricMatrix.new testEntries).length + 1)).map
        (fun i =>
          (((SparseSymmetricMatrix.new testEntries).indices.getD i []).zip
            ((SparseSymmetricMatrix.new testEntries).values.getD i [])).foldl
            (fun acc p => acc + p.2.q * ([3, 2, 1] : List ℚ).getD p.1 0) 0)) :=
  ⟨by decide, by decide, spec_c2 testEntries [3, 2, 1] (by decide) (by decide)⟩

theorem is_valid_iff (s : SparseRowMatrix) :
    s.is_valid = true ↔ ∀ v ∈ s.values, v.isFinite = true := by
  rw [SparseRowMatrix.is_valid, beq_iff_eq, List.length_eq_zero,
    List.filter_eq_nil_iff]
  simp

/-- C8: `apply` fails exactly in two cases — with the dimension-mismatch
error when the vector length differs from the view's dimension, and with
the data-integrity error when the lengths match but some stored
coefficient is non-finite — and succeeds (returning the row sums) for
finite stored values and a matching-length vector.  The dimension check
runs first, and the validity check precedes any arithmetic, as in the
source's `assert` order. -/
theorem spec_c8 (s : SparseRowMatrix) (x : List ℚ) :
    (s.apply x = Except.error ApplyError.dimensionMismatch ↔ s.len ≠ x.length) ∧
    (s.apply x = Except.error ApplyError.notValid ↔
      s.len = x.length ∧ ∃ v ∈ s.values, ¬ v.isFinite = true) ∧
    (s.len = x.length → (∀ v ∈ s.values, v.isFinite = true) →
      s.apply x = Except.ok (s.matvec x)) := by
  unfold SparseRowMatrix.apply
  by_cases hd : s.len = x.length
  · by_cases hv : s.is_valid = true
    · rw [if_neg (by simp [hd]), if_neg (by simp [hv])]
      refine ⟨by simp [hd], ?_, fun _ _ => rfl⟩
      constructor
      · intro habs
        cases habs
      · rintro ⟨_, v, hvmem, hvf⟩
        exact absurd ((is_valid_iff s).mp hv v hvmem) hvf
    · rw [if_neg (by simp [hd]), if_pos (by simpa using hv)]
      refine ⟨by simp [hd], ?_, ?_⟩
      · constructor
        · intro _
          refine ⟨hd, ?_⟩
          have h2 := (not_iff_not.mpr (is_valid_iff s)).mp hv
          push_neg at h2
          rcases h2 with ⟨v, hvmem, hvf⟩
          exact ⟨v, hvmem, by simp [hvf]⟩
        · intro _
          rfl
      · intro _ hall
        exact absurd ((is_valid_iff s).mpr hall) hv
  · rw [if_pos (by simpa using hd)]
    refine ⟨by simp [hd], ?_, fun h1 _ => absurd h1 hd⟩
    constructor
    · intro habs
      cases habs
    · rintro ⟨h1, _⟩
      exact absurd h1 hd

/-- Witness for C8: the compressed view of the test matrix with the
vector `[3, 2, 1]` satisfies the success case. -/
theorem spec_c8_witness :
    ((SparseRowMatrix.new (SparseSymmetricMatrix.new testEntries)).len =
      ([3, 2, 1] : List ℚ).length) ∧
    (∀ v ∈ (SparseRowMatrix.new (SparseSymmetricMatrix.new testEntries)).values,
      v.isFinite = true) ∧
    (SparseRowMatrix.new (SparseSymmetricMatrix.new testEntries)).apply [3, 2, 1] =
      Except.ok ((SparseRowMatrix.new
        (SparseSymmetricMatrix.new testEntries)).matvec [3, 2, 1]) :=
  ⟨by decide, by decide,
    (spec_c8 (SparseRowMatrix.new (SparseSymmetricMatrix.new testEntries))
      [3, 2, 1]).2.2 (by decide) (by decide)⟩

/-- C10: for a compressed view built from a constructed matrix, the row
pointer array has length `dimension + 1`, starts at 0, is non-decreasing
and ends at the total number of stored values; the column array has the
same length as the value array; and every stored column index is at most
the matrix's `length`.  Together these put every access of `apply` within
bounds for a vector of matching dimension. -/
theorem spec_c10 (entries : List Entry) :
    (SparseRowMatrix.new (SparseSymmetricMatrix.new entries)).row_pointers.length =
      ((SparseSymmetricMatrix.new entries).length + 1) + 1 ∧
    (SparseRowMatrix.new (SparseSymmetricMatrix.new entries)).row_pointers.getD 0 0 = 0 ∧
    (SparseRowMatrix.new (SparseSymmetricMatrix.new entries)).row_pointers.Pairwise
      (· ≤ ·) ∧
    (SparseRowMatrix.new (SparseSymmetricMatrix.new entries)).row_pointers.getD
        ((SparseSymmetricMatrix.new entries).length + 1) 0 =
      (SparseRowMatrix.new (SparseSymmetricMatrix.new entries)).values.length ∧
    (SparseRowMatrix.new (SparseSymmetricMatrix.new entries)).column_index.length =
      (SparseRowMatrix.new (SparseSymmetricMatrix.new entries)).values.length ∧
    ∀ c ∈ (SparseRowMatrix.new (SparseSymmetricMatrix.new entries)).column_index,
      c ≤ (SparseSymmetricMatrix.new entries).length := by
  refine ⟨?_, ?_, ?_, ?_, ?_, ?_⟩
  · rw [srm_new_eq]
    show ((List.range _).map _).length = _
    rw [List.length_map, List.length_range]
  · rw [srm_ptr_getD _ (by omega)]
    rfl
  · rw [srm_new_eq]
    show ((List.range _).map _).Pairwise (· ≤ ·)
    rw [List.pairwise_map]
    refine (List.pairwise_lt_range _).imp ?_
    intro a b hab
    exact crsVals_length_mono _ (Nat.le_of_lt hab)
  · rw [srm_ptr_getD _ (by omega), srm_new_eq]
  · rw [srm_new_eq]
    exact (crs_len_eq _ _).symm
  · intro c hc
    have hc2 : c ∈ crsCols (SparseSymmetricMatrix.new entries)
        ((SparseSymmetricMatrix.new entries).length + 1) := by
      rw [srm_new_eq] at hc
      exact hc
    rw [crsCols] at hc2
    rcases List.mem_flatten.mp hc2 with ⟨l, hl, hcl⟩
    rcases List.mem_map.mp hl with ⟨i, _, rfl⟩
    rw [new_indices_getD] at hcl
    rcases List.mem_map.mp hcl with ⟨e, he, rfl⟩
    have hec : e ∈ canonicalEntries entries := (List.mem_filter.mp he).1
    have := le_maxCoord hec
    rw [new_length_eq]
    omega

/-- C9, counterexample: with the identity preconditioner, tolerance
`10^-4` (squared threshold `10^-8`) and the spec's default iteration cap
(the dimension, 3), the spec-modelled solver run on the regression system
of `src/main.rs` does not report 2 iterations: in exact arithmetic the
residual after two conjugate-gradient steps has squared norm about 0.285,
so a third step runs (and ends with an exactly zero residual). -/
theorem spec_c9_counterexample :
    (solve (SparseRowMatrix.new (SparseSymmetricMatrix.new mainEntries))
      [5, 6, 7] (fun r => r) (1 / 100000000) 3).iterations ≠ 2 := by
  decide

/-- C9, amended: solving the regression system with the identity
preconditioner, tolerance `10^-4` and iteration cap 3 completes after
3 iterations with best guess exactly `[7/6, 1/12, 41/72]`, which is
approximately `[1.16667, 0.08333, 0.56944]` (the solution of the system;
the floating-point run of `src/main.rs` reports these coordinates up to
rounding, but reports the iteration count as 2). -/
theorem spec_c9_amended :
    solve (SparseRowMatrix.new (SparseSymmetricMatrix.new mainEntries))
      [5, 6, 7] (fun r => r) (1 / 100000000) 3 =
      ⟨true, 3, [7 / 6, 1 / 12, 41 / 72]⟩ := by
  decide

end PCGS
